import Mathlib

/-!
Shallow embedding of the `quantum` crate's gate catalog (`src/gates.rs`)
together with the core value types the catalog consumes.  Only `gates.rs`
is among the sources; the core types (`Complex`, `Matrix`, `Gate`, `Ket`,
the measurement step of `QuantumComputer`) are modelled from the
specification, and each such definition says so in its doc comment.
Floating-point complex scalars are idealised as `ℂ`.
-/

namespace Quantum

/-- Modelled from the spec (`complex.rs` is not among the sources):
`Complex::new_euler(r, φ)` — polar/Euler construction from
(magnitude, angle): the complex number `r·cos φ + i·r·sin φ`. -/
noncomputable def new_euler (r φ : ℝ) : ℂ :=
  ⟨r * Real.cos φ, r * Real.sin φ⟩

/-- Modelled from the spec (`matrix.rs` is not among the sources):
`Matrix` — a square complex matrix of dimension `size`.  Entries are read
through a total function; indices at or above `size` are irrelevant
(matrix equality only inspects in-range indices). -/
structure QMatrix where
  size : Nat
  entry : Nat → Nat → ℂ

/-- Modelled from the spec: `Matrix::identity(d)` — the `d×d` matrix with 1
on the diagonal and 0 elsewhere. -/
def QMatrix.identity (d : Nat) : QMatrix :=
  ⟨d, fun i j => if i = j then 1 else 0⟩

/-- Modelled from the spec: `Matrix::multiply` — the standard matrix
product; a dimension mismatch is a contract violation, modelled as
`none`. -/
noncomputable def QMatrix.multiply (A B : QMatrix) : Option QMatrix :=
  if A.size = B.size then
    some ⟨A.size, fun i j => ∑ k in Finset.range A.size, A.entry i k * B.entry k j⟩
  else none

/-- Modelled from the spec: `Matrix::tensor` — the Kronecker product,
producing a `(dimA·dimB)`-square result (row-major block convention). -/
def QMatrix.tensor (A B : QMatrix) : QMatrix :=
  ⟨A.size * B.size, fun i j =>
    A.entry (i / B.size) (j / B.size) * B.entry (i % B.size) (j % B.size)⟩

/-- Modelled from the spec: `Matrix::embed(sub, rowOffset, colOffset)` —
overwrites the block starting at the given offsets with `sub`'s entries;
failing to fit within bounds is a contract violation, modelled as
`none`. -/
def QMatrix.embed (m sub : QMatrix) (ro co : Nat) : Option QMatrix :=
  if ro + sub.size ≤ m.size ∧ co + sub.size ≤ m.size then
    some ⟨m.size, fun i j =>
      if ro ≤ i ∧ i < ro + sub.size ∧ co ≤ j ∧ j < co + sub.size then
        sub.entry (i - ro) (j - co)
      else m.entry i j⟩
  else none

/-- The conjugate transpose, formalising the glossary's "inverse equals
conjugate transpose" notion of unitarity. -/
def QMatrix.dagger (A : QMatrix) : QMatrix :=
  ⟨A.size, fun i j => (starRingEnd ℂ) (A.entry j i)⟩

/-- Exact matrix equality: same dimension and equal entries at every
in-range index. -/
def QMatrix.MEq (A B : QMatrix) : Prop :=
  A.size = B.size ∧ ∀ i j, i < A.size → j < A.size → A.entry i j = B.entry i j

/-- Modelled from the spec: element-wise matrix equality within epsilon
(the crate fixes one epsilon; here the tolerance is a parameter, so the
statements cover any fixed nonnegative choice). -/
def QMatrix.ApproxEq (ε : ℝ) (A B : QMatrix) : Prop :=
  A.size = B.size ∧ ∀ i j, i < A.size → j < A.size →
    Complex.abs (A.entry i j - B.entry i j) ≤ ε

/-- The `m_real!`/`m!` macro applied to a 2×2 literal grid, row-major. -/
def m2 (a00 a01 a10 a11 : ℂ) : QMatrix :=
  ⟨2, fun i j =>
    if i = 0 then (if j = 0 then a00 else if j = 1 then a01 else 0)
    else if i = 1 then (if j = 0 then a10 else if j = 1 then a11 else 0)
    else 0⟩

/-- The `m_real!`/`m!` macro applied to a 4×4 literal grid, row-major. -/
def m4 (a00 a01 a02 a03 a10 a11 a12 a13 a20 a21 a22 a23 a30 a31 a32 a33 : ℂ) :
    QMatrix :=
  ⟨4, fun i j =>
    if i = 0 then
      (if j = 0 then a00 else if j = 1 then a01 else if j = 2 then a02
       else if j = 3 then a03 else 0)
    else if i = 1 then
      (if j = 0 then a10 else if j = 1 then a11 else if j = 2 then a12
       else if j = 3 then a13 else 0)
    else if i = 2 then
      (if j = 0 then a20 else if j = 1 then a21 else if j = 2 then a22
       else if j = 3 then a23 else 0)
    else if i = 3 then
      (if j = 0 then a30 else if j = 1 then a31 else if j = 2 then a32
       else if j = 3 then a33 else 0)
    else 0⟩

/-- Modelled from the spec (`gate.rs` is not among the sources): `Gate` —
an immutable (width, operator) pair; `new` stores both verbatim.  The
`operator.size = 2^width` contract is proved about the catalog below, not
enforced by construction. -/
structure Gate where
  width : Nat
  operator : QMatrix

/-- Modelled from the spec: `Gate::new(width, operator)` stores both
verbatim. -/
def Gate.new (width : Nat) (operator : QMatrix) : Gate := ⟨width, operator⟩

/-- Modelled from the spec: the read-only `matrix()` accessor. -/
def Gate.matrix (g : Gate) : QMatrix := g.operator

/-- Modelled from the spec (`ket.rs` is not among the sources): `Ket` — a
fixed-length sequence of complex amplitudes, read through a total
function; indices at or above `size` are irrelevant. -/
structure Ket where
  size : Nat
  amp : Nat → ℂ

/-- Modelled from the spec: `Ket::size(width) = 2^width`, the
amplitude-vector length of a `width`-qubit register. -/
def ketSize (width : Nat) : Nat := 2 ^ width

/-- Modelled from the spec: the computational basis vector at index `v`
(what `initialize(v)` sets the state to). -/
def basisKet (size v : Nat) : Ket :=
  ⟨size, fun i => if i = v then 1 else 0⟩

/-- Modelled from the spec: `Ket::apply(gate)` — with `k = gate.width` and
`n = log2 size`, expand the operator to the full register by tensoring
with the identity on the `2^(n-k)`-dimensional space of the remaining
qubits (the gate acts on the leading qubits), then left-multiply the
amplitude vector by the expanded matrix. -/
noncomputable def Ket.apply (k : Ket) (g : Gate) : Ket :=
  let n := Nat.log2 k.size
  let full := g.operator.tensor (QMatrix.identity (2 ^ (n - g.width)))
  ⟨k.size, fun i => ∑ j in Finset.range k.size, full.entry i j * k.amp j⟩

/-- Exact ket equality: same length and equal amplitudes at every in-range
index. -/
def Ket.KEq (a b : Ket) : Prop :=
  a.size = b.size ∧ ∀ i, i < a.size → a.amp i = b.amp i

/-- Modelled from the spec (`computer.rs` is not among the sources): the
cumulative Born probability through basis index `i`, clamped to 1 at the
last index. -/
noncomputable def cumProb (k : Ket) (i : Nat) : ℝ :=
  if i + 1 = k.size then 1
  else ∑ j in Finset.range (i + 1), Complex.normSq (k.amp j)

/-- Modelled from the spec: `collapse()` with uniform draw `r ∈ [0,1)`
selects the smallest basis index whose cumulative probability exceeds the
draw. -/
noncomputable def collapseIndex (k : Ket) (r : ℝ) : Nat :=
  sInf {i : Nat | r < cumProb k i}

/-! ### The gate catalog, translated from `src/gates.rs` -/

/-- `identity(width)`: the identity gate. -/
def identity (width : Nat) : Gate :=
  Gate.new width (QMatrix.identity (ketSize width))

/-- `2.0f64.sqrt().recip()` from `hadamard`. -/
noncomputable def sqrt2inv : ℝ := (Real.sqrt 2)⁻¹

/-- The Hadamard gate. -/
noncomputable def hadamard : Gate :=
  Gate.new 1 (m2 sqrt2inv sqrt2inv sqrt2inv (-(sqrt2inv : ℝ) : ℂ))

/-- The Pauli-X gate. -/
def pauli_x : Gate := Gate.new 1 (m2 0 1 1 0)

/-- The Pauli-Y gate. -/
def pauli_y : Gate := Gate.new 1 (m2 0 (-Complex.I) Complex.I 0)

/-- The Pauli-Z gate. -/
def pauli_z : Gate := Gate.new 1 (m2 1 0 0 (-1))

/-- The single-qubit phase-shift gate. -/
noncomputable def phase_shift (phi : ℝ) : Gate :=
  Gate.new 1 (m2 1 0 0 (new_euler 1 phi))

/-- The two-qubit swap gate. -/
def swap : Gate :=
  Gate.new 2 (m4 1 0 0 0  0 0 1 0  0 1 0 0  0 0 0 1)

/-- `c!(0.5, 0.5)` from `sqrt_swap`. -/
noncomputable def alpha_one : ℂ := ⟨1/2, 1/2⟩

/-- `c!(0.5, -0.5)` from `sqrt_swap`. -/
noncomputable def alpha_two : ℂ := ⟨1/2, -(1/2)⟩

/-- The two-qubit sqrt(swap) gate. -/
noncomputable def sqrt_swap : Gate :=
  Gate.new 2 (m4 1 0 0 0  0 alpha_one alpha_two 0  0 alpha_two alpha_one 0  0 0 0 1)

/-- The two-qubit controlled-not gate. -/
def controlled_not : Gate :=
  Gate.new 2 (m4 1 0 0 0  0 1 0 0  0 0 0 1  0 0 1 0)

/-- `controlled(u)`: asserts that `u` is 2×2 (the panic is modelled as
`none`), then embeds `u` at offset (2,2) of the 4×4 template whose upper
block is the identity. -/
def controlled (u : QMatrix) : Option Gate :=
  if u.size = 2 then
    match (m4 1 0 0 0  0 1 0 0  0 0 0 0  0 0 0 0).embed u 2 2 with
    | some m => some (Gate.new 2 m)
    | none => none
  else none

/-- The two-qubit controlled-X gate. -/
def controlled_x : Option Gate := controlled pauli_x.matrix

/-- The two-qubit controlled-Y gate. -/
def controlled_y : Option Gate := controlled pauli_y.matrix

/-- The two-qubit controlled-Z gate. -/
def controlled_z : Option Gate := controlled pauli_z.matrix

/-! ### Helper lemmas -/

lemma multiply_eq (A B : QMatrix) (h : A.size = B.size) :
    A.multiply B =
      some ⟨A.size, fun i j => ∑ k in Finset.range A.size, A.entry i k * B.entry k j⟩ := by
  unfold QMatrix.multiply
  rw [if_pos h]

lemma controlled_eq (u : QMatrix) (h : u.size = 2) :
    controlled u = some (Gate.new 2 ⟨4, fun i j =>
      if 2 ≤ i ∧ i < 2 + u.size ∧ 2 ≤ j ∧ j < 2 + u.size then u.entry (i - 2) (j - 2)
      else (m4 1 0 0 0  0 1 0 0  0 0 0 0  0 0 0 0).entry i j⟩) := by
  have hfit : 2 + u.size ≤ (m4 1 0 0 0  0 1 0 0  0 0 0 0  0 0 0 0).size ∧
      2 + u.size ≤ (m4 1 0 0 0  0 1 0 0  0 0 0 0  0 0 0 0).size := by
    constructor <;> (show 2 + u.size ≤ 4) <;> omega
  unfold controlled
  rw [if_pos h]
  unfold QMatrix.embed
  rw [if_pos hfit]
  rfl

lemma QMatrix.MEq.toApprox {A B : QMatrix} (h : A.MEq B) {ε : ℝ} (hε : 0 ≤ ε) :
    A.ApproxEq ε B := by
  refine ⟨h.1, fun i j hi hj => ?_⟩
  rw [h.2 i j hi hj]
  simpa using hε

lemma log2_two : Nat.log2 2 = 1 := by simp [Nat.log2]

lemma log2_four : Nat.log2 4 = 2 := by simp [Nat.log2]

lemma log2_two_pow (w : Nat) : Nat.log2 (2 ^ w) = w := by
  induction w with
  | zero => simp [Nat.log2]
  | succ n ih => rw [Nat.log2]; simp [pow_succ, ih]

/-! ### Claims -/

/-- **C1**: the gate returned by `controlled` on the Pauli-X matrix agrees
with `controlled_not` at every in-range entry exactly, hence the two
matrices are epsilon-equal for every nonnegative tolerance: the generic
embed-based construction and the literal controlled-not matrix define the
same 4×4 operator. -/
theorem controlled_pauli_x_is_controlled_not (ε : ℝ) (hε : 0 ≤ ε) :
    ∃ g, controlled pauli_x.matrix = some g ∧
      g.matrix.MEq controlled_not.matrix ∧
      g.matrix.ApproxEq ε controlled_not.matrix := by
  obtain ⟨g, hg, hm⟩ :
      ∃ g, controlled pauli_x.matrix = some g ∧ g.matrix.MEq controlled_not.matrix := by
    refine ⟨_, controlled_eq _ rfl, rfl, ?_⟩
    intro i j hi hj
    have hi4 : i < 4 := hi
    have hj4 : j < 4 := hj
    interval_cases i <;> interval_cases j <;>
      simp [pauli_x, controlled_not, Gate.matrix, Gate.new, m2, m4]
  exact ⟨g, hg, hm, hm.toApprox hε⟩

theorem controlled_pauli_x_is_controlled_not_witness :
    ∃ g, controlled pauli_x.matrix = some g ∧
      g.matrix.MEq controlled_not.matrix ∧
      g.matrix.ApproxEq 1 controlled_not.matrix :=
  controlled_pauli_x_is_controlled_not 1 (by norm_num)

/-- **C2**: applying `controlled_not` sends the four two-qubit basis vectors
e0 ↦ e0, e1 ↦ e1, e2 ↦ e3 and e3 ↦ e2: the permutation fixing indices 0
and 1 and exchanging 2 and 3.  Reading a basis index as its two-bit binary
expansion high bit first, this is the truth table 00→00, 01→01, 10→11,
11→10. -/
theorem controlled_not_truth_table :
    ((basisKet 4 0).apply controlled_not).KEq (basisKet 4 0) ∧
    ((basisKet 4 1).apply controlled_not).KEq (basisKet 4 1) ∧
    ((basisKet 4 2).apply controlled_not).KEq (basisKet 4 3) ∧
    ((basisKet 4 3).apply controlled_not).KEq (basisKet 4 2) := by
  refine ⟨?_, ?_, ?_, ?_⟩ <;> refine ⟨rfl, ?_⟩ <;> intro i hi <;>
    (have hi4 : i < 4 := hi) <;> clear hi <;>
    interval_cases i <;>
      simp [Ket.apply, Finset.sum_range_succ, controlled_not, m4, Gate.new,
        QMatrix.tensor, QMatrix.identity, basisKet, log2_four]

/-- **C4**: applying `swap` sends the four two-qubit basis vectors e0 ↦ e0,
e1 ↦ e2, e2 ↦ e1 and e3 ↦ e3: the permutation fixing indices 0 and 3 and
exchanging 1 and 2.  Under the same high-bit-first index convention that
makes the controlled-not truth table hold, this maps basis state 01
(index 1) to 10 (index 2) and conversely. -/
theorem swap_truth_table :
    ((basisKet 4 0).apply swap).KEq (basisKet 4 0) ∧
    ((basisKet 4 1).apply swap).KEq (basisKet 4 2) ∧
    ((basisKet 4 2).apply swap).KEq (basisKet 4 1) ∧
    ((basisKet 4 3).apply swap).KEq (basisKet 4 3) := by
  refine ⟨?_, ?_, ?_, ?_⟩ <;> refine ⟨rfl, ?_⟩ <;> intro i hi <;>
    (have hi4 : i < 4 := hi) <;> clear hi <;>
    interval_cases i <;>
      simp [Ket.apply, Finset.sum_range_succ, swap, m4, Gate.new,
        QMatrix.tensor, QMatrix.identity, basisKet, log2_four]

/-- A matrix whose product with itself exists and is the identity of its
dimension, exactly and within epsilon. -/
def MulSelfIsId (ε : ℝ) (A : QMatrix) : Prop :=
  ∃ M, A.multiply A = some M ∧ M.MEq (QMatrix.identity A.size) ∧
    M.ApproxEq ε (QMatrix.identity A.size)

lemma mulSelf_of_meq {A : QMatrix}
    (h : ∃ M, A.multiply A = some M ∧ M.MEq (QMatrix.identity A.size))
    {ε : ℝ} (hε : 0 ≤ ε) : MulSelfIsId ε A :=
  let ⟨M, hM, hq⟩ := h
  ⟨M, hM, hq, hq.toApprox hε⟩

lemma pauli_x_sq :
    ∃ M, pauli_x.matrix.multiply pauli_x.matrix = some M ∧
      M.MEq (QMatrix.identity pauli_x.matrix.size) := by
  refine ⟨_, multiply_eq _ _ rfl, rfl, ?_⟩
  intro i j hi hj
  have hi2 : i < 2 := hi
  have hj2 : j < 2 := hj
  interval_cases i <;> interval_cases j <;>
    simp [Finset.sum_range_succ, pauli_x, Gate.matrix, Gate.new, m2, QMatrix.identity]

lemma pauli_y_sq :
    ∃ M, pauli_y.matrix.multiply pauli_y.matrix = some M ∧
      M.MEq (QMatrix.identity pauli_y.matrix.size) := by
  refine ⟨_, multiply_eq _ _ rfl, rfl, ?_⟩
  intro i j hi hj
  have hi2 : i < 2 := hi
  have hj2 : j < 2 := hj
  interval_cases i <;> interval_cases j <;>
    simp [Finset.sum_range_succ, pauli_y, Gate.matrix, Gate.new, m2, QMatrix.identity,
      Complex.I_mul_I]

lemma pauli_z_sq :
    ∃ M, pauli_z.matrix.multiply pauli_z.matrix = some M ∧
      M.MEq (QMatrix.identity pauli_z.matrix.size) := by
  refine ⟨_, multiply_eq _ _ rfl, rfl, ?_⟩
  intro i j hi hj
  have hi2 : i < 2 := hi
  have hj2 : j < 2 := hj
  interval_cases i <;> interval_cases j <;>
    simp [Finset.sum_range_succ, pauli_z, Gate.matrix, Gate.new, m2, QMatrix.identity]

lemma sqrt2inv_mul_self : sqrt2inv * sqrt2inv = 1/2 := by
  rw [sqrt2inv, ← mul_inv, Real.mul_self_sqrt (by norm_num : (0:ℝ) ≤ 2)]
  norm_num

lemma hadamard_sq :
    ∃ M, hadamard.matrix.multiply hadamard.matrix = some M ∧
      M.MEq (QMatrix.identity hadamard.matrix.size) := by
  refine ⟨_, multiply_eq _ _ rfl, rfl, ?_⟩
  intro i j hi hj
  have hi2 : i < 2 := hi
  have hj2 : j < 2 := hj
  have hs : (sqrt2inv : ℂ) * (sqrt2inv : ℂ) = 1/2 := by
    rw [← Complex.ofReal_mul, sqrt2inv_mul_self]
    norm_num
  interval_cases i <;> interval_cases j <;>
    simp [Finset.sum_range_succ, hadamard, Gate.matrix, Gate.new, m2, QMatrix.identity] <;>
    ring_nf <;>
    rw [show ((sqrt2inv : ℂ))^2 = (sqrt2inv : ℂ) * (sqrt2inv : ℂ) from sq _] <;>
    rw [hs] <;> norm_num

lemma swap_sq :
    ∃ M, swap.matrix.multiply swap.matrix = some M ∧
      M.MEq (QMatrix.identity swap.matrix.size) := by
  refine ⟨_, multiply_eq _ _ rfl, rfl, ?_⟩
  intro i j hi hj
  have hi4 : i < 4 := hi
  have hj4 : j < 4 := hj
  interval_cases i <;> interval_cases j <;>
    simp [Finset.sum_range_succ, swap, Gate.matrix, Gate.new, m4, QMatrix.identity]

/-- **C3**: each of `pauli_x`, `pauli_y`, `pauli_z`, `hadamard` and `swap`
is an involution: the product of the gate's matrix with itself is the
identity matrix of the same dimension, exactly, hence within any
nonnegative epsilon (for Pauli-Y the square is the identity on the nose,
so the "up to global phase" allowance is satisfied with phase 1). -/
theorem catalog_involutions (ε : ℝ) (hε : 0 ≤ ε) :
    MulSelfIsId ε pauli_x.matrix ∧ MulSelfIsId ε pauli_y.matrix ∧
    MulSelfIsId ε pauli_z.matrix ∧ MulSelfIsId ε hadamard.matrix ∧
    MulSelfIsId ε swap.matrix :=
  ⟨mulSelf_of_meq pauli_x_sq hε, mulSelf_of_meq pauli_y_sq hε,
   mulSelf_of_meq pauli_z_sq hε, mulSelf_of_meq hadamard_sq hε,
   mulSelf_of_meq swap_sq hε⟩

/-- **C5**: for every width `w ≥ 1` and every amplitude vector of length
`2^w`, applying `identity w` leaves the amplitude vector unchanged. -/
theorem identity_gate_apply (w : Nat) (_hw : 1 ≤ w) (k : Ket) (hk : k.size = 2 ^ w) :
    (k.apply (identity w)).KEq k := by
  refine ⟨rfl, ?_⟩
  intro i hi
  have hik : i < k.size := hi
  simp only [Ket.apply, identity, Gate.new, QMatrix.tensor, QMatrix.identity, ketSize,
    hk, log2_two_pow, Nat.sub_self, pow_zero, Nat.div_one, Nat.mod_one, mul_one,
    Nat.mul_one]
  simp only [ite_mul, one_mul, zero_mul, mul_ite, mul_zero, if_true]
  rw [Finset.sum_ite_eq]
  rw [if_pos (Finset.mem_range.mpr (hk ▸ hik))]

/-- **C6**: applying `hadamard` to the one-qubit basis state |0⟩ yields
the amplitude vector (1/√2, 1/√2), so by the Born rule each classical
outcome has probability exactly 1/2, in particular within any nonnegative
epsilon — the property underlying the spec's 1000-trial frequency
expectation. -/
theorem hadamard_on_zero (ε : ℝ) (hε : 0 ≤ ε) :
    ((basisKet 2 0).apply hadamard).amp 0 = (sqrt2inv : ℂ) ∧
    ((basisKet 2 0).apply hadamard).amp 1 = (sqrt2inv : ℂ) ∧
    Complex.normSq (((basisKet 2 0).apply hadamard).amp 0) = 1/2 ∧
    Complex.normSq (((basisKet 2 0).apply hadamard).amp 1) = 1/2 ∧
    |Complex.normSq (((basisKet 2 0).apply hadamard).amp 0) - 1/2| ≤ ε ∧
    |Complex.normSq (((basisKet 2 0).apply hadamard).amp 1) - 1/2| ≤ ε := by
  have h0 : ((basisKet 2 0).apply hadamard).amp 0 = (sqrt2inv : ℂ) := by
    simp [Ket.apply, Finset.sum_range_succ, hadamard, m2, Gate.new,
      QMatrix.tensor, QMatrix.identity, basisKet, log2_two]
  have h1 : ((basisKet 2 0).apply hadamard).amp 1 = (sqrt2inv : ℂ) := by
    simp [Ket.apply, Finset.sum_range_succ, hadamard, m2, Gate.new,
      QMatrix.tensor, QMatrix.identity, basisKet, log2_two]
  have hn : Complex.normSq ((sqrt2inv : ℝ) : ℂ) = 1/2 := by
    rw [Complex.normSq_ofReal, sqrt2inv_mul_self]
  refine ⟨h0, h1, ?_, ?_, ?_, ?_⟩
  all_goals simp [h0, h1, hn, hε]

/-- **C7**: `pauli_z` maps |0⟩ to |0⟩ and |1⟩ to −|1⟩; collapsing after
applying it to a basis state returns the starting basis index for every
draw `r ∈ [0,1)`, the sign flip being visible only in the pre-collapse
amplitudes. -/
theorem pauli_z_classical (r : ℝ) (hr0 : 0 ≤ r) (hr1 : r < 1) :
    ((basisKet 2 0).apply pauli_z).KEq (basisKet 2 0) ∧
    ((basisKet 2 1).apply pauli_z).amp 0 = 0 ∧
    ((basisKet 2 1).apply pauli_z).amp 1 = -1 ∧
    collapseIndex ((basisKet 2 0).apply pauli_z) r = 0 ∧
    collapseIndex ((basisKet 2 1).apply pauli_z) r = 1 := by
  have e00 : ((basisKet 2 0).apply pauli_z).amp 0 = 1 := by
    simp [Ket.apply, Finset.sum_range_succ, pauli_z, m2, Gate.new,
      QMatrix.tensor, QMatrix.identity, basisKet, log2_two]
  have e01 : ((basisKet 2 0).apply pauli_z).amp 1 = 0 := by
    simp [Ket.apply, Finset.sum_range_succ, pauli_z, m2, Gate.new,
      QMatrix.tensor, QMatrix.identity, basisKet, log2_two]
  have e10 : ((basisKet 2 1).apply pauli_z).amp 0 = 0 := by
    simp [Ket.apply, Finset.sum_range_succ, pauli_z, m2, Gate.new,
      QMatrix.tensor, QMatrix.identity, basisKet, log2_two]
  have e11 : ((basisKet 2 1).apply pauli_z).amp 1 = -1 := by
    simp [Ket.apply, Finset.sum_range_succ, pauli_z, m2, Gate.new,
      QMatrix.tensor, QMatrix.identity, basisKet, log2_two]
  have hsz0 : ((basisKet 2 0).apply pauli_z).size = 2 := rfl
  have hsz1 : ((basisKet 2 1).apply pauli_z).size = 2 := rfl
  have hc00 : cumProb ((basisKet 2 0).apply pauli_z) 0 = 1 := by
    rw [cumProb, hsz0]
    norm_num [Finset.sum_range_succ, e00]
  have hc10 : cumProb ((basisKet 2 1).apply pauli_z) 0 = 0 := by
    rw [cumProb, hsz1]
    norm_num [Finset.sum_range_succ, e10]
  have hc11 : cumProb ((basisKet 2 1).apply pauli_z) 1 = 1 := by
    rw [cumProb, hsz1]
    norm_num
  refine ⟨⟨rfl, ?_⟩, e10, e11, ?_, ?_⟩
  · intro i hi
    have hi2 : i < 2 := hi
    interval_cases i
    · rw [e00]; simp [basisKet]
    · rw [e01]; simp [basisKet]
  · apply Nat.sInf_eq_zero.mpr
    left
    show r < cumProb ((basisKet 2 0).apply pauli_z) 0
    rw [hc00]
    exact hr1
  · have h1m : 1 ∈ {i : Nat | r < cumProb ((basisKet 2 1).apply pauli_z) i} := by
      show r < cumProb ((basisKet 2 1).apply pauli_z) 1
      rw [hc11]
      exact hr1
    have h0m : 0 ∉ {i : Nat | r < cumProb ((basisKet 2 1).apply pauli_z) i} := by
      intro hmem
      have : r < 0 := by
        have := hmem
        rw [Set.mem_setOf_eq, hc10] at this
        exact this
      linarith
    refine le_antisymm (Nat.sInf_le h1m) ?_
    rcases Nat.eq_zero_or_pos (sInf {i : Nat | r < cumProb ((basisKet 2 1).apply pauli_z) i}) with h | h
    · exact absurd (h ▸ Nat.sInf_mem ⟨1, h1m⟩) h0m
    · exact h

theorem catalog_involutions_witness :
    MulSelfIsId 1 pauli_x.matrix ∧ MulSelfIsId 1 pauli_y.matrix ∧
    MulSelfIsId 1 pauli_z.matrix ∧ MulSelfIsId 1 hadamard.matrix ∧
    MulSelfIsId 1 swap.matrix :=
  catalog_involutions 1 (by norm_num)

theorem identity_gate_apply_witness :
    ((Ket.mk 2 (fun i => (i : ℂ))).apply (identity 1)).KEq (Ket.mk 2 (fun i => (i : ℂ))) :=
  identity_gate_apply 1 (by norm_num) (Ket.mk 2 (fun i => (i : ℂ))) rfl

theorem hadamard_on_zero_witness :
    ((basisKet 2 0).apply hadamard).amp 0 = (sqrt2inv : ℂ) ∧
    ((basisKet 2 0).apply hadamard).amp 1 = (sqrt2inv : ℂ) ∧
    Complex.normSq (((basisKet 2 0).apply hadamard).amp 0) = 1/2 ∧
    Complex.normSq (((basisKet 2 0).apply hadamard).amp 1) = 1/2 ∧
    |Complex.normSq (((basisKet 2 0).apply hadamard).amp 0) - 1/2| ≤ 1 ∧
    |Complex.normSq (((basisKet 2 0).apply hadamard).amp 1) - 1/2| ≤ 1 :=
  hadamard_on_zero 1 (by norm_num)

theorem pauli_z_classical_witness :
    ((basisKet 2 0).apply pauli_z).KEq (basisKet 2 0) ∧
    ((basisKet 2 1).apply pauli_z).amp 0 = 0 ∧
    ((basisKet 2 1).apply pauli_z).amp 1 = -1 ∧
    collapseIndex ((basisKet 2 0).apply pauli_z) (1/2) = 0 ∧
    collapseIndex ((basisKet 2 1).apply pauli_z) (1/2) = 1 :=
  pauli_z_classical (1/2) (by norm_num) (by norm_num)

def MulDaggerIsId (ε : ℝ) (A : QMatrix) : Prop :=
  ∃ M, A.multiply A.dagger = some M ∧ M.MEq (QMatrix.identity A.size) ∧
    M.ApproxEq ε (QMatrix.identity A.size)

lemma mulDagger_of_meq {A : QMatrix}
    (h : ∃ M, A.multiply A.dagger = some M ∧ M.MEq (QMatrix.identity A.size))
    {ε : ℝ} (hε : 0 ≤ ε) : MulDaggerIsId ε A :=
  let ⟨M, hM, hq⟩ := h
  ⟨M, hM, hq, hq.toApprox hε⟩

lemma pauli_x_mul_dagger :
    ∃ M, pauli_x.matrix.multiply pauli_x.matrix.dagger = some M ∧
      M.MEq (QMatrix.identity pauli_x.matrix.size) := by
  refine ⟨_, multiply_eq _ _ rfl, rfl, ?_⟩
  intro i j hi hj
  have hi2 : i < 2 := hi
  have hj2 : j < 2 := hj
  interval_cases i <;> interval_cases j <;>
    simp [Finset.sum_range_succ, pauli_x, Gate.matrix, Gate.new, m2, QMatrix.identity,
      QMatrix.dagger]

lemma pauli_y_mul_dagger :
    ∃ M, pauli_y.matrix.multiply pauli_y.matrix.dagger = some M ∧
      M.MEq (QMatrix.identity pauli_y.matrix.size) := by
  refine ⟨_, multiply_eq _ _ rfl, rfl, ?_⟩
  intro i j hi hj
  have hi2 : i < 2 := hi
  have hj2 : j < 2 := hj
  interval_cases i <;> interval_cases j <;>
    simp [Finset.sum_range_succ, pauli_y, Gate.matrix, Gate.new, m2, QMatrix.identity,
      QMatrix.dagger, Complex.I_mul_I, Complex.conj_I]

lemma pauli_z_mul_dagger :
    ∃ M, pauli_z.matrix.multiply pauli_z.matrix.dagger = some M ∧
      M.MEq (QMatrix.identity pauli_z.matrix.size) := by
  refine ⟨_, multiply_eq _ _ rfl, rfl, ?_⟩
  intro i j hi hj
  have hi2 : i < 2 := hi
  have hj2 : j < 2 := hj
  interval_cases i <;> interval_cases j <;>
    simp [Finset.sum_range_succ, pauli_z, Gate.matrix, Gate.new, m2, QMatrix.identity,
      QMatrix.dagger]

lemma hadamard_mul_dagger :
    ∃ M, hadamard.matrix.multiply hadamard.matrix.dagger = some M ∧
      M.MEq (QMatrix.identity hadamard.matrix.size) := by
  refine ⟨_, multiply_eq _ _ rfl, rfl, ?_⟩
  intro i j hi hj
  have hi2 : i < 2 := hi
  have hj2 : j < 2 := hj
  have hs : (sqrt2inv : ℂ) * (sqrt2inv : ℂ) = 1/2 := by
    rw [← Complex.ofReal_mul, sqrt2inv_mul_self]
    norm_num
  interval_cases i <;> interval_cases j <;>
    simp [Finset.sum_range_succ, hadamard, Gate.matrix, Gate.new, m2, QMatrix.identity,
      QMatrix.dagger, Complex.conj_ofReal] <;>
    ring_nf <;>
    rw [show ((sqrt2inv : ℂ))^2 = (sqrt2inv : ℂ) * (sqrt2inv : ℂ) from sq _] <;>
    rw [hs] <;> norm_num

lemma new_euler_mul_conj (φ : ℝ) :
    new_euler 1 φ * (starRingEnd ℂ) (new_euler 1 φ) = 1 := by
  rw [Complex.mul_conj]
  have h : Complex.normSq (new_euler 1 φ) = 1 := by
    simp [new_euler, Complex.normSq_mk]
    nlinarith [Real.sin_sq_add_cos_sq φ]
  rw [h]
  norm_num

lemma phase_shift_mul_dagger (φ : ℝ) :
    ∃ M, (phase_shift φ).matrix.multiply (phase_shift φ).matrix.dagger = some M ∧
      M.MEq (QMatrix.identity (phase_shift φ).matrix.size) := by
  refine ⟨_, multiply_eq _ _ rfl, rfl, ?_⟩
  intro i j hi hj
  have hi2 : i < 2 := hi
  have hj2 : j < 2 := hj
  interval_cases i <;> interval_cases j <;>
    simp [Finset.sum_range_succ, phase_shift, Gate.matrix, Gate.new, m2, QMatrix.identity,
      QMatrix.dagger, new_euler_mul_conj]

lemma swap_mul_dagger :
    ∃ M, swap.matrix.multiply swap.matrix.dagger = some M ∧
      M.MEq (QMatrix.identity swap.matrix.size) := by
  refine ⟨_, multiply_eq _ _ rfl, rfl, ?_⟩
  intro i j hi hj
  have hi4 : i < 4 := hi
  have hj4 : j < 4 := hj
  interval_cases i <;> interval_cases j <;>
    simp [Finset.sum_range_succ, swap, Gate.matrix, Gate.new, m4, QMatrix.identity,
      QMatrix.dagger]

lemma controlled_not_mul_dagger :
    ∃ M, controlled_not.matrix.multiply controlled_not.matrix.dagger = some M ∧
      M.MEq (QMatrix.identity controlled_not.matrix.size) := by
  refine ⟨_, multiply_eq _ _ rfl, rfl, ?_⟩
  intro i j hi hj
  have hi4 : i < 4 := hi
  have hj4 : j < 4 := hj
  interval_cases i <;> interval_cases j <;>
    simp [Finset.sum_range_succ, controlled_not, Gate.matrix, Gate.new, m4,
      QMatrix.identity, QMatrix.dagger]

lemma sqrt_swap_mul_dagger :
    ∃ M, sqrt_swap.matrix.multiply sqrt_swap.matrix.dagger = some M ∧
      M.MEq (QMatrix.identity sqrt_swap.matrix.size) := by
  refine ⟨_, multiply_eq _ _ rfl, rfl, ?_⟩
  intro i j hi hj
  have hi4 : i < 4 := hi
  have hj4 : j < 4 := hj
  interval_cases i <;> interval_cases j <;>
    simp [Finset.sum_range_succ, sqrt_swap, Gate.matrix, Gate.new, m4, QMatrix.identity,
      QMatrix.dagger, alpha_one, alpha_two, Complex.ext_iff, Complex.mul_re,
      Complex.mul_im, Complex.add_re, Complex.add_im] <;>
    norm_num

lemma unitary_elementwise {u : QMatrix} (h2 : u.size = 2)
    (hU : ∃ M, u.multiply u.dagger = some M ∧ M.MEq (QMatrix.identity 2)) :
    ∀ a b, a < 2 → b < 2 →
      (∑ k in Finset.range 2, u.entry a k * (starRingEnd ℂ) (u.entry b k)) =
        if a = b then 1 else 0 := by
  obtain ⟨M, hM, hq⟩ := hU
  rw [multiply_eq u u.dagger rfl] at hM
  obtain rfl := Option.some.inj hM
  intro a b ha hb
  have hsz : (⟨u.size, fun i j => ∑ k in Finset.range u.size,
      u.entry i k * u.dagger.entry k j⟩ : QMatrix).size = 2 := h2
  have h := hq.2 a b (by rw [hsz]; exact ha) (by rw [hsz]; exact hb)
  rw [show (⟨u.size, fun i j => ∑ k in Finset.range u.size,
      u.entry i k * u.dagger.entry k j⟩ : QMatrix).entry a b =
      ∑ k in Finset.range u.size, u.entry a k * u.dagger.entry k b from rfl] at h
  rw [h2] at h
  simpa [QMatrix.dagger, QMatrix.identity] using h

lemma controlled_unitary {u : QMatrix} (h2 : u.size = 2)
    (hU : ∀ a b, a < 2 → b < 2 →
      (∑ k in Finset.range 2, u.entry a k * (starRingEnd ℂ) (u.entry b k)) =
        if a = b then 1 else 0) :
    ∀ g, controlled u = some g →
      ∃ M, g.matrix.multiply g.matrix.dagger = some M ∧
        M.MEq (QMatrix.identity g.matrix.size) := by
  intro g hg
  rw [controlled_eq u h2] at hg
  obtain rfl := Option.some.inj hg
  refine ⟨_, multiply_eq _ _ rfl, rfl, ?_⟩
  intro i j hi hj
  have hi4 : i < 4 := hi
  have hj4 : j < 4 := hj
  interval_cases i <;> interval_cases j <;>
    simp [Finset.sum_range_succ, Gate.matrix, Gate.new, m4, QMatrix.identity,
      QMatrix.dagger, h2]
  · simpa [Finset.sum_range_succ] using hU 0 0 (by norm_num) (by norm_num)
  · simpa [Finset.sum_range_succ] using hU 0 1 (by norm_num) (by norm_num)
  · simpa [Finset.sum_range_succ] using hU 1 0 (by norm_num) (by norm_num)
  · simpa [Finset.sum_range_succ] using hU 1 1 (by norm_num) (by norm_num)

/-- **C8**: every catalog constructor satisfies the Gate invariant
`operator.size = 2^width`: `identity w` has width `w` and a
`2^w`-dimensional matrix; `hadamard`, the Paulis and `phase_shift φ` for
every `φ` have width 1 and a 2×2 matrix; `swap`, `sqrt_swap`,
`controlled_not`, `controlled u` for every 2×2 `u`, and the
controlled-X/Y/Z gates have width 2 and a 4×4 matrix. -/
theorem gate_dimension_invariant (w : Nat) (_hw : 1 ≤ w) (φ : ℝ)
    (u : QMatrix) (hu : u.size = 2) :
    ((identity w).width = w ∧ (identity w).operator.size = 2 ^ w) ∧
    (hadamard.width = 1 ∧ hadamard.operator.size = 2 ^ 1) ∧
    (pauli_x.width = 1 ∧ pauli_x.operator.size = 2 ^ 1) ∧
    (pauli_y.width = 1 ∧ pauli_y.operator.size = 2 ^ 1) ∧
    (pauli_z.width = 1 ∧ pauli_z.operator.size = 2 ^ 1) ∧
    ((phase_shift φ).width = 1 ∧ (phase_shift φ).operator.size = 2 ^ 1) ∧
    (swap.width = 2 ∧ swap.operator.size = 2 ^ 2) ∧
    (sqrt_swap.width = 2 ∧ sqrt_swap.operator.size = 2 ^ 2) ∧
    (controlled_not.width = 2 ∧ controlled_not.operator.size = 2 ^ 2) ∧
    (∃ g, controlled u = some g ∧ g.width = 2 ∧ g.operator.size = 2 ^ 2) ∧
    (∃ g, controlled_x = some g ∧ g.width = 2 ∧ g.operator.size = 2 ^ 2) ∧
    (∃ g, controlled_y = some g ∧ g.width = 2 ∧ g.operator.size = 2 ^ 2) ∧
    (∃ g, controlled_z = some g ∧ g.width = 2 ∧ g.operator.size = 2 ^ 2) := by
  refine ⟨⟨rfl, rfl⟩, ⟨rfl, rfl⟩, ⟨rfl, rfl⟩, ⟨rfl, rfl⟩, ⟨rfl, rfl⟩, ⟨rfl, rfl⟩,
    ⟨rfl, rfl⟩, ⟨rfl, rfl⟩, ⟨rfl, rfl⟩, ?_, ?_, ?_, ?_⟩
  · exact ⟨_, controlled_eq u hu, rfl, rfl⟩
  · exact ⟨_, controlled_eq pauli_x.matrix rfl, rfl, rfl⟩
  · exact ⟨_, controlled_eq pauli_y.matrix rfl, rfl, rfl⟩
  · exact ⟨_, controlled_eq pauli_z.matrix rfl, rfl, rfl⟩

theorem gate_dimension_invariant_witness :
    ∃ g, controlled pauli_x.matrix = some g ∧ g.width = 2 ∧ g.operator.size = 2 ^ 2 :=
  (gate_dimension_invariant 1 (by norm_num) 0 pauli_x.matrix rfl).2.2.2.2.2.2.2.2.2.1

/-- **C9**: every catalog gate is unitary although nothing enforces this at
construction: for `hadamard`, the Paulis, `phase_shift φ` for every real
`φ`, `swap`, `sqrt_swap`, `controlled_not` and the controlled-X/Y/Z
gates, the operator times its conjugate transpose is the identity exactly
and hence within any nonnegative epsilon; and for every unitary 2×2
matrix `u`, the gate `controlled u` is unitary. -/
theorem catalog_unitary (ε : ℝ) (hε : 0 ≤ ε) (φ : ℝ) (u : QMatrix)
    (h2 : u.size = 2)
    (hU : ∃ M, u.multiply u.dagger = some M ∧ M.MEq (QMatrix.identity 2)) :
    MulDaggerIsId ε hadamard.matrix ∧ MulDaggerIsId ε pauli_x.matrix ∧
    MulDaggerIsId ε pauli_y.matrix ∧ MulDaggerIsId ε pauli_z.matrix ∧
    MulDaggerIsId ε (phase_shift φ).matrix ∧ MulDaggerIsId ε swap.matrix ∧
    MulDaggerIsId ε sqrt_swap.matrix ∧ MulDaggerIsId ε controlled_not.matrix ∧
    (∀ g, controlled u = some g → MulDaggerIsId ε g.matrix) ∧
    (∀ g, controlled_x = some g → MulDaggerIsId ε g.matrix) ∧
    (∀ g, controlled_y = some g → MulDaggerIsId ε g.matrix) ∧
    (∀ g, controlled_z = some g → MulDaggerIsId ε g.matrix) := by
  refine ⟨mulDagger_of_meq hadamard_mul_dagger hε, mulDagger_of_meq pauli_x_mul_dagger hε,
    mulDagger_of_meq pauli_y_mul_dagger hε, mulDagger_of_meq pauli_z_mul_dagger hε,
    mulDagger_of_meq (phase_shift_mul_dagger φ) hε, mulDagger_of_meq swap_mul_dagger hε,
    mulDagger_of_meq sqrt_swap_mul_dagger hε, mulDagger_of_meq controlled_not_mul_dagger hε,
    ?_, ?_, ?_, ?_⟩
  · intro g hg
    exact mulDagger_of_meq (controlled_unitary h2 (unitary_elementwise h2 hU) g hg) hε
  · intro g hg
    exact mulDagger_of_meq
      (controlled_unitary rfl (unitary_elementwise rfl pauli_x_mul_dagger) g hg) hε
  · intro g hg
    exact mulDagger_of_meq
      (controlled_unitary rfl (unitary_elementwise rfl pauli_y_mul_dagger) g hg) hε
  · intro g hg
    exact mulDagger_of_meq
      (controlled_unitary rfl (unitary_elementwise rfl pauli_z_mul_dagger) g hg) hε

theorem catalog_unitary_witness : MulDaggerIsId 1 hadamard.matrix :=
  (catalog_unitary 1 (by norm_num) 0 pauli_x.matrix rfl pauli_x_mul_dagger).1

/-- **C10**: `controlled u` fails fast — the `assert_eq!(2, u.size())`
panic, modelled as `none` — exactly when the supplied matrix `u` is not
2×2; for every 2×2 `u` it returns a gate, the `embed` call at offset
(2,2) always fitting the 4×4 template, so no other failure is
reachable. -/
theorem controlled_some_iff_size_two (u : QMatrix) :
    (controlled u).isSome ↔ u.size = 2 := by
  constructor
  · intro h
    by_contra hne
    rw [controlled, if_neg hne] at h
    simp at h
  · intro h
    rw [controlled_eq u h]
    rfl

end Quantum
